import Mathlib

/-! Verification of the TypeScript map extractor in
`scripts/parse_pokemon_map.py`: a shallow embedding of its comment
stripper, its line state machine and its summary, with theorems settling
the specification's claims. Text is modelled as `List Char`; a Python
`dict` is modelled as an insertion-ordered association list. -/

namespace PokeMap

/-- Text, as the script manipulates it: a list of characters. -/
abbrev Str := List Char

/-- Whitespace, as used by Python's `str.strip()` and the regex class
`\s` (ASCII part; the parsed data file is ASCII). -/
def isSpace (c : Char) : Bool :=
  c == ' ' || c == '\t' || c == '\n' || c == '\r' || c == '\x0b' || c == '\x0c'

/-- Line-break characters recognised by Python's `str.splitlines`. -/
def isBreak (c : Char) : Bool :=
  c == '\n' || c == '\r' || c == '\x0b' || c == '\x0c' ||
  c == '\x1c' || c == '\x1d' || c == '\x1e' || c == '\u0085' ||
  c == '\u2028' || c == '\u2029'

/-- Worker for `splitlines`, carrying the current line reversed. -/
def splitlinesGo : Str → Str → List Str
  | acc, [] => if acc = [] then [] else [acc.reverse]
  | acc, '\r' :: '\n' :: rest => acc.reverse :: splitlinesGo [] rest
  | acc, c :: rest =>
    if isBreak c then acc.reverse :: splitlinesGo [] rest
    else splitlinesGo (c :: acc) rest

/-- Python's `str.splitlines` (a `"\r\n"` pair is one break; no trailing
empty line). -/
def splitlines (s : Str) : List Str := splitlinesGo [] s

/-- Python `str.strip()`. -/
def pyStrip (s : Str) : Str :=
  ((s.dropWhile isSpace).reverse.dropWhile isSpace).reverse

/-- Python `str.rstrip(",")`: every trailing comma removed. -/
def rstripCommas (s : Str) : Str :=
  (s.reverse.dropWhile (fun c => c == ',')).reverse

/-- Python `s.startswith(p)`. -/
def startsWith (s p : Str) : Prop := s.take p.length = p

instance (s p : Str) : Decidable (startsWith s p) := by
  unfold startsWith; infer_instance

/-- First `*/` in the text: the remainder after it (`none` when absent).
This is the non-greedy search of the regex `/\*[\s\S]*?\*/`. -/
def findClose : Str → Option Str
  | [] => none
  | c :: rest =>
    if c = '*' ∧ rest.head? = some '/' then some rest.tail
    else findClose rest

/-- One left-to-right pass of `re.sub(r"/\*[\s\S]*?\*/", "", raw)`: at
each `/*` the span up to the first following `*/` is dropped, and the
scan resumes after it; a `/*` with no terminator is kept together with
everything after it. The fuel argument only serves termination;
`stripComments` supplies enough (the scan always advances). -/
def stripGo : Nat → Str → Str
  | _, [] => []
  | 0, cs => cs
  | Nat.succ n, c :: rest =>
    if c = '/' ∧ rest.head? = some '*' then
      match findClose rest.tail with
      | some r => stripGo n r
      | none => c :: rest
    else c :: stripGo n rest

/-- The comment stripper `re.sub(r"/\*[\s\S]*?\*/", "", raw)`. -/
def stripComments (s : Str) : Str := stripGo s.length s

/-- Whether the text contains a `/*` comment opener. -/
def hasOpen : Str → Bool
  | [] => false
  | c :: rest => decide (c = '/' ∧ rest.head? = some '*') || hasOpen rest

/-- The single-quote character delimiting strings in the map literal. -/
def quoteChar : Char := '\''

/-- Match `FORM_PATTERN = \['([^']*)'\s*,\s*'([^']*)'\s*\]` at the start
of the text: `some (code, name, rest-after-the-match)` on success. The
greedy `[^']*` is `takeWhile (not a quote)`; every quantifier in this
pattern is deterministic (no net backtracking). -/
def matchForm (cs : Str) : Option (Str × Str × Str) :=
  match cs with
  | '[' :: c1 :: r2 =>
    if c1 = quoteChar then
      let code := r2.takeWhile (fun c => c != quoteChar)
      match r2.dropWhile (fun c => c != quoteChar) with
      | _ :: r3 =>
        match r3.dropWhile isSpace with
        | ',' :: r4 =>
          match r4.dropWhile isSpace with
          | c2 :: r5 =>
            if c2 = quoteChar then
              let name := r5.takeWhile (fun c => c != quoteChar)
              match r5.dropWhile (fun c => c != quoteChar) with
              | _ :: r6 =>
                match r6.dropWhile isSpace with
                | ']' :: r7 => some (code, name, r7)
                | _ => none
              | [] => none
            else none
          | [] => none
        | _ => none
      | [] => none
    else none
  | _ => none

/-- `FORM_PATTERN.findall`: scan left to right; after a match continue
at its end, otherwise advance one character. The fuel argument only
serves termination (the scan always advances, so `length` is enough). -/
def findFormsGo : Nat → Str → List (Str × Str)
  | _, [] => []
  | 0, _ => []
  | Nat.succ n, cs =>
    match matchForm cs with
    | some (code, name, after) => (code, name) :: findFormsGo n after
    | none => findFormsGo n cs.tail

/-- `parse_forms_from_text`: all `['code', 'name']` tuples of the text,
left to right (the source stores each as a two-element list; the model
uses a pair). -/
def parse_forms_from_text (text : Str) : List (Str × Str) :=
  findFormsGo text.length text

/-- Match `KEY_PATTERN = ^'(?P<id>\d+)'\s*:\s*(?P<value>.+)$` against a
whole line: `some (id, value)` on success. The `\s*` before
`(?P<value>.+)$` is greedy but backtracks one character when everything
after the colon is whitespace, so the value is then the line's final
whitespace character. `\d` is modelled as an ASCII digit. -/
def keyMatch (cs : Str) : Option (Str × Str) :=
  match cs with
  | c0 :: r1 =>
    if c0 = quoteChar then
      let digits := r1.takeWhile Char.isDigit
      match r1.dropWhile Char.isDigit with
      | c1 :: r2 =>
        if digits ≠ [] ∧ c1 = quoteChar then
          match r2.dropWhile isSpace with
          | ':' :: r3 =>
            let v := r3.dropWhile isSpace
            if v ≠ [] then some (digits, v)
            else
              match r3.getLast? with
              | some cl => some (digits, [cl])
              | none => none
          | _ => none
        else none
      | [] => none
    else none
  | [] => none

/-- A form record: the pair `(code, name)`. -/
abbrev Form := Str × Str

/-- The entry map: a Python `dict` as an insertion-ordered association
list (unique keys by construction). -/
abbrev EntryMap := List (Str × List Form)

/-- Python `dict` assignment `entries[key] = v`: replace the value in
place when the key is present, else append. -/
def insertEntry : EntryMap → Str → List Form → EntryMap
  | [], k, v => [(k, v)]
  | p :: rest, k, v =>
    if p.1 = k then (k, v) :: rest else p :: insertEntry rest k v

/-- Python `dict` lookup `entries[k]`, as an option. -/
def lookupEntry (m : EntryMap) (k : Str) : Option (List Form) :=
  (m.find? (fun p => p.1 == k)).map (fun p => p.2)

/-- The state of `parse_typescript_map`'s loop: `current_id`,
`current_forms` and the `entries` built so far. -/
structure PState where
  currentId : Option Str
  currentForms : List Form
  entries : EntryMap
  deriving DecidableEq

/-- One iteration of the `for raw_line in raw.splitlines()` loop body of
`parse_typescript_map`. -/
def stepLine (st : PState) (rawLine : Str) : PState :=
  let line := pyStrip rawLine
  if line = [] ∨ startsWith line "//".data ∨ startsWith line "export".data then
    st
  else
    match st.currentId with
    | none =>
      match keyMatch (rstripCommas line) with
      | none => st
      | some (key, value) =>
        let rest := pyStrip (rstripCommas value)
        if startsWith rest "[".data ∧ rest.getLast? = some ']' ∧
            rest.count '[' = rest.count ']' then
          { st with entries := insertEntry st.entries key (parse_forms_from_text rest) }
        else
          { currentId := some key
            currentForms :=
              if rest ≠ [] ∧ rest ≠ ['['] then parse_forms_from_text rest else []
            entries := st.entries }
    | some cid =>
      if startsWith line "]".data then
        { currentId := none, currentForms := [],
          entries := insertEntry st.entries cid st.currentForms }
      else
        { st with currentForms := st.currentForms ++ parse_forms_from_text line }

/-- The loop's initial state. -/
def initState : PState := ⟨none, [], []⟩

/-- The commit after the loop: an unterminated multi-line block is still
recorded under its identifier. -/
def finalize (st : PState) : EntryMap :=
  match st.currentId with
  | some cid => insertEntry st.entries cid st.currentForms
  | none => st.entries

/-- The line pass of `parse_typescript_map` over already-split lines. -/
def runLines (ls : List Str) : EntryMap :=
  finalize (ls.foldl stepLine initState)

/-- `parse_typescript_map` on the file's text (reading the file is
external I/O, outside the model). -/
def parse_typescript_map (raw : Str) : EntryMap :=
  runLines (splitlines (stripComments raw))

/-- The control part of the machine together with the commits a line
makes, branch for branch the same as `stepLine`: used to state
last-write-wins over the commit sequence. -/
def stepLineC (s : Option Str × List Form) (rawLine : Str) :
    (Option Str × List Form) × List (Str × List Form) :=
  let line := pyStrip rawLine
  if line = [] ∨ startsWith line "//".data ∨ startsWith line "export".data then
    (s, [])
  else
    match s.1 with
    | none =>
      match keyMatch (rstripCommas line) with
      | none => (s, [])
      | some (key, value) =>
        let rest := pyStrip (rstripCommas value)
        if startsWith rest "[".data ∧ rest.getLast? = some ']' ∧
            rest.count '[' = rest.count ']' then
          (s, [(key, parse_forms_from_text rest)])
        else
          ((some key,
            if rest ≠ [] ∧ rest ≠ ['['] then parse_forms_from_text rest else []),
           [])
    | some cid =>
      if startsWith line "]".data then
        ((none, []), [(cid, s.2)])
      else
        ((s.1, s.2 ++ parse_forms_from_text line), [])

/-- Run the control machine over the lines, collecting all commits. -/
def runC : (Option Str × List Form) → List Str →
    (Option Str × List Form) × List (Str × List Form)
  | s, [] => (s, [])
  | s, l :: ls =>
    let r := stepLineC s l
    let r2 := runC r.1 ls
    (r2.1, r.2 ++ r2.2)

/-- All commits of a parse, in text order (the end-of-input salvage of
an open block comes last). -/
def commitLog (raw : Str) : List (Str × List Form) :=
  let r := runC (none, []) (splitlines (stripComments raw))
  match r.1.1 with
  | some cid => r.2 ++ [(cid, r.1.2)]
  | none => r.2

/-- The form names in `summarize`'s generator order: entries in map
order, each entry's names in list order. -/
def allNames (m : EntryMap) : List Str :=
  (m.map (fun e => e.2.map (fun f => f.2))).flatten

/-- Python's `max(l, key=len)` from a first element: a later element
replaces the current best only on a strictly greater length, so the
first longest wins; `[]` stands for the `default=""`. -/
def pyMaxByLen : List Str → Str
  | [] => []
  | x :: xs => xs.foldl (fun best n => if best.length < n.length then n else best) x

/-- `summarize`'s `longest_name = max((name for …), default="", key=len)`. -/
def longest_name (m : EntryMap) : Str := pyMaxByLen (allNames m)

/-- `summarize`'s `total_forms = sum(len(forms) for forms in entries.values())`. -/
def total_forms (m : EntryMap) : Nat := (m.map (fun e => e.2.length)).sum

/-- The greatest length among a list of names (0 when there are none). -/
def maxLen (l : List Str) : Nat := l.foldr (fun n acc => max n.length acc) 0

/-- The last commit made under a key, if any: the reference point for
last-write-wins. -/
def lastCommit (L : List (Str × List Form)) (k : Str) : Option (List Form) :=
  (L.reverse.find? (fun p => p.1 == k)).map (fun p => p.2)

/-! ### Lemmas about the comment stripper -/

theorem findClose_length : ∀ {cs r : Str}, findClose cs = some r →
    r.length + 2 ≤ cs.length := by
  intro cs
  induction cs with
  | nil => intro r h; simp [findClose] at h
  | cons c rest ih =>
    intro r h
    rw [findClose] at h
    split at h
    · rename_i hc
      cases rest with
      | nil => simp at hc
      | cons d t =>
        simp only [List.tail_cons, Option.some.injEq] at h
        subst h
        simp
    · have := ih h
      simp only [List.length_cons]
      omega

theorem findClose_sublist : ∀ {cs r : Str}, findClose cs = some r → r.Sublist cs := by
  intro cs
  induction cs with
  | nil => intro r h; simp [findClose] at h
  | cons c rest ih =>
    intro r h
    rw [findClose] at h
    split at h
    · simp only [Option.some.injEq] at h
      subst h
      exact (List.tail_sublist rest).trans (List.sublist_cons_self c rest)
    · exact (ih h).trans (List.sublist_cons_self c rest)

theorem stripGo_eq_of_le : ∀ {n : Nat} {m : Nat} {cs : Str}, cs.length ≤ n →
    cs.length ≤ m → stripGo n cs = stripGo m cs := by
  intro n
  induction n with
  | zero =>
    intro m cs hn hm
    have : cs = [] := List.eq_nil_of_length_eq_zero (Nat.le_zero.mp hn)
    subst this
    cases m <;> simp [stripGo]
  | succ n ih =>
    intro m cs hn hm
    cases cs with
    | nil => cases m <;> simp [stripGo]
    | cons c rest =>
      cases m with
      | zero => simp at hm
      | succ m' =>
        simp only [stripGo]
        split
        · cases hfc : findClose rest.tail with
          | some r =>
            simp only [hfc]
            have hfl := findClose_length hfc
            have htl : rest.tail.length = rest.length - 1 := List.length_tail rest
            have hlen : rest.length + 1 ≤ n + 1 := by simpa using hn
            have hlem : rest.length + 1 ≤ m' + 1 := by simpa using hm
            refine ih ?_ ?_ <;> omega
          | none => simp only [hfc]
        · have hlen : rest.length + 1 ≤ n + 1 := by simpa using hn
          have hlem : rest.length + 1 ≤ m' + 1 := by simpa using hm
          congr 1
          refine ih ?_ ?_ <;> omega

theorem stripComments_cons_open_some {body r : Str} (h : findClose body = some r) :
    stripComments ('/' :: '*' :: body) = stripComments r := by
  show stripGo (body.length + 1 + 1) ('/' :: '*' :: body) = stripGo r.length r
  rw [stripGo]
  rw [if_pos (by simp)]
  simp only [List.tail_cons, h]
  exact stripGo_eq_of_le (by have := findClose_length h; omega) (Nat.le_refl _)

theorem stripComments_cons_open_none {body : Str} (h : findClose body = none) :
    stripComments ('/' :: '*' :: body) = '/' :: '*' :: body := by
  show stripGo (body.length + 1 + 1) ('/' :: '*' :: body) = _
  rw [stripGo]
  rw [if_pos (by simp)]
  simp only [List.tail_cons, h]

theorem stripComments_cons (c : Char) (rest : Str)
    (h : ¬(c = '/' ∧ rest.head? = some '*')) :
    stripComments (c :: rest) = c :: stripComments rest := by
  show stripGo (rest.length + 1) (c :: rest) = _
  rw [stripGo]
  rw [if_neg h]
  rfl

theorem stripGo_sublist : ∀ (n : Nat) (cs : Str), (stripGo n cs).Sublist cs := by
  intro n
  induction n with
  | zero => intro cs; cases cs <;> simp [stripGo]
  | succ n ih =>
    intro cs
    cases cs with
    | nil => simp [stripGo]
    | cons c rest =>
      rw [stripGo]
      split
      · cases hfc : findClose rest.tail with
        | some r =>
          simp only [hfc]
          refine ((ih r).trans ((findClose_sublist hfc).trans ?_)).trans
            (List.sublist_cons_self c rest)
          exact List.tail_sublist rest
        | none => simp only [hfc]; exact List.Sublist.refl _
      · exact List.Sublist.cons₂ c (ih rest)

theorem stripComments_sublist (s : Str) : (stripComments s).Sublist s :=
  stripGo_sublist s.length s

theorem hasOpen_false_id : ∀ {s : Str}, hasOpen s = false → stripComments s = s := by
  intro s
  induction s with
  | nil => intro _; rfl
  | cons c rest ih =>
    intro h
    rw [hasOpen] at h
    simp only [Bool.or_eq_false_iff, decide_eq_false_iff_not] at h
    rw [stripComments_cons c rest h.1, ih h.2]

theorem stripComments_append_open {pre rest : Str} (h : hasOpen pre = false) :
    stripComments (pre ++ '/' :: '*' :: rest) =
      pre ++ stripComments ('/' :: '*' :: rest) := by
  induction pre with
  | nil => simp
  | cons c pre' ih =>
    rw [hasOpen] at h
    simp only [Bool.or_eq_false_iff, decide_eq_false_iff_not] at h
    have hcond : ¬(c = '/' ∧ (pre' ++ '/' :: '*' :: rest).head? = some '*') := by
      cases pre' with
      | nil => simp
      | cons d p =>
        simpa using h.1
    rw [List.cons_append, stripComments_cons c _ hcond, ih h.2, List.cons_append]

/-! ### Lemmas about trailing-comma stripping and the key pattern -/

theorem rstripCommas_replicate (s : Str) :
    ∃ k, s = rstripCommas s ++ List.replicate k ',' := by
  refine ⟨(s.reverse.takeWhile (fun c => c == ',')).length, ?_⟩
  have hall : ∀ b ∈ s.reverse.takeWhile (fun c => c == ','), b = ',' := by
    intro b hb
    have := List.mem_takeWhile_imp hb
    simpa using this
  have hrep := List.eq_replicate_of_mem hall
  calc s = s.reverse.reverse := (List.reverse_reverse s).symm
    _ = (s.reverse.takeWhile (fun c => c == ',') ++
          s.reverse.dropWhile (fun c => c == ',')).reverse := by
        rw [List.takeWhile_append_dropWhile]
    _ = rstripCommas s ++ (s.reverse.takeWhile (fun c => c == ',')).reverse := by
        rw [List.reverse_append]; rfl
    _ = _ := by rw [hrep, List.reverse_replicate, List.length_replicate]

theorem rstripCommas_getLast (s : Str) : (rstripCommas s).getLast? ≠ some ',' := by
  unfold rstripCommas
  rw [List.getLast?_reverse]
  intro h
  have hd := List.head?_dropWhile_not (fun c => c == ',') s.reverse
  rw [h] at hd
  simp at hd

/-- A successful key match starts at a quote character. -/
theorem keyMatch_head {cs : Str} {kv : Str × Str} (h : keyMatch cs = some kv) :
    ∃ t, cs = quoteChar :: t := by
  cases cs with
  | nil => simp [keyMatch] at h
  | cons c0 r1 =>
    refine ⟨r1, ?_⟩
    by_cases hc : c0 = quoteChar
    · rw [hc]
    · rw [keyMatch] at h
      rw [if_neg hc] at h
      simp at h

/-- `rstrip` only removes from the tail: a nonempty result's head is the
input's head. -/
theorem rstripCommas_cons {s t : Str} {c : Char} (h : rstripCommas s = c :: t) :
    ∃ u, s = c :: u := by
  obtain ⟨k, hk⟩ := rstripCommas_replicate s
  rw [h] at hk
  exact ⟨t ++ List.replicate k ',', by simpa using hk⟩

/-- A line whose key pattern matches cannot be empty, a `//` line or an
`export` line: it starts with a quote. -/
theorem keyMatch_line_shape {line : Str} {kv : Str × Str}
    (h : keyMatch (rstripCommas line) = some kv) :
    ¬(line = [] ∨ startsWith line "//".data ∨ startsWith line "export".data) := by
  obtain ⟨t, ht⟩ := keyMatch_head h
  obtain ⟨u, hu⟩ := rstripCommas_cons ht
  subst hu
  intro hor
  rcases hor with h1 | h2 | h3
  · exact List.cons_ne_nil _ _ h1
  · rw [startsWith] at h2
    simp only [List.take_succ_cons] at h2
    have : quoteChar = '/' := by
      have := congrArg List.head? h2
      simpa using this
    simp [quoteChar] at this
  · rw [startsWith] at h3
    simp only [List.take_succ_cons] at h3
    have : quoteChar = 'e' := by
      have := congrArg List.head? h3
      simpa using this
    simp [quoteChar] at this

/-! ### Lemmas about the entry map -/

theorem lookup_insertEntry (m : EntryMap) (k : Str) (v : List Form) (q : Str) :
    lookupEntry (insertEntry m k v) q = if q = k then some v else lookupEntry m q := by
  induction m with
  | nil =>
    by_cases hq : q = k
    · subst hq; simp [insertEntry, lookupEntry]
    · simp [insertEntry, lookupEntry, hq, Ne.symm hq]
  | cons p rest ih =>
    rw [insertEntry]
    by_cases hp : p.1 = k
    · rw [if_pos hp]
      by_cases hq : q = k
      · subst hq; simp [lookupEntry]
      · subst hp
        simp only [lookupEntry, List.find?_cons]
        have hbq : (p.1 == q) = false := by simp [Ne.symm hq]
        have hbq2 : ((p.1, v).1 == q) = false := by simpa using hbq
        simp [hq, hbq, hbq2, lookupEntry]
    · rw [if_neg hp]
      by_cases hq : q = k
      · subst hq
        have hbq : (p.1 == q) = false := by simp [hp]
        have hstep : lookupEntry (p :: insertEntry rest q v) q =
            lookupEntry (insertEntry rest q v) q := by
          simp [lookupEntry, List.find?_cons, hbq]
        rw [hstep, ih]
        simp
      · by_cases hpq : p.1 = q
        · have hbq : (p.1 == q) = true := by simp [hpq]
          simp [lookupEntry, List.find?_cons, hbq, hq]
        · have hbq : (p.1 == q) = false := by simp [hpq]
          simp only [lookupEntry, List.find?_cons, hbq]
          have := ih
          simp only [lookupEntry] at this
          simp [this, hq]

theorem mem_insertEntry {m : EntryMap} {k : Str} {v : List Form} {p : Str × List Form}
    (h : p ∈ insertEntry m k v) : p ∈ m ∨ p = (k, v) := by
  induction m with
  | nil => simp [insertEntry] at h; simp [h]
  | cons e rest ih =>
    rw [insertEntry] at h
    split at h
    · rcases List.mem_cons.mp h with h1 | h2
      · right; exact h1
      · left; exact List.mem_cons_of_mem _ h2
    · rcases List.mem_cons.mp h with h1 | h2
      · left; exact h1 ▸ List.mem_cons_self _ _
      · rcases ih h2 with h3 | h4
        · left; exact List.mem_cons_of_mem _ h3
        · right; exact h4

/-! ### The commit sequence: linking `stepLine` with `stepLineC` -/

theorem stepLine_link (c : Option Str) (f : List Form) (E : EntryMap) (l : Str) :
    stepLine ⟨c, f, E⟩ l =
      ⟨(stepLineC (c, f) l).1.1, (stepLineC (c, f) l).1.2,
        ((stepLineC (c, f) l).2).foldl (fun m p => insertEntry m p.1 p.2) E⟩ := by
  simp only [stepLine, stepLineC]
  split
  · rfl
  · split
    · split
      · rfl
      · split
        · rfl
        · rfl
    · split
      · rfl
      · rfl

theorem run_link : ∀ (ls : List Str) (c : Option Str) (f : List Form) (E : EntryMap),
    ls.foldl stepLine ⟨c, f, E⟩ =
      ⟨(runC (c, f) ls).1.1, (runC (c, f) ls).1.2,
        ((runC (c, f) ls).2).foldl (fun m p => insertEntry m p.1 p.2) E⟩ := by
  intro ls
  induction ls with
  | nil => intro c f E; rfl
  | cons l ls ih =>
    intro c f E
    rw [List.foldl_cons, stepLine_link, runC]
    simp only [List.foldl_append]
    rw [ih]

theorem lookup_foldl_ins : ∀ (L : List (Str × List Form)) (m : EntryMap) (k : Str),
    lookupEntry (L.foldl (fun m p => insertEntry m p.1 p.2) m) k =
      (lastCommit L k).or (lookupEntry m k) := by
  intro L
  induction L with
  | nil => intro m k; simp [lastCommit]
  | cons p L ih =>
    intro m k
    rw [List.foldl_cons, ih]
    unfold lastCommit
    rw [List.reverse_cons, List.find?_append, Option.map_or', Option.or_assoc]
    congr 1
    rw [lookup_insertEntry]
    by_cases hk : k = p.1
    · have hb : (p.1 == k) = true := by simp [hk]
      simp [List.find?_cons, hb, hk]
    · have hb : (p.1 == k) = false := by
        rw [beq_eq_false_iff_ne]
        exact fun h => hk h.symm
      simp [List.find?_cons, hb, hk]

theorem parse_lookup_lastCommit (raw : Str) (k : Str) :
    lookupEntry (parse_typescript_map raw) k = lastCommit (commitLog raw) k := by
  unfold parse_typescript_map runLines commitLog
  have h := run_link (splitlines (stripComments raw)) none [] []
  rw [show initState = (⟨none, [], []⟩ : PState) from rfl, h]
  cases hc : (runC (none, []) (splitlines (stripComments raw))).1.1 with
  | none =>
    simp only [finalize, hc]
    rw [lookup_foldl_ins]
    simp [lookupEntry, Option.or_none]
  | some cid =>
    simp only [finalize, hc]
    have hfold : insertEntry
        (((runC (none, []) (splitlines (stripComments raw))).2).foldl
          (fun m p => insertEntry m p.1 p.2) []) cid
        (runC (none, []) (splitlines (stripComments raw))).1.2 =
        (((runC (none, []) (splitlines (stripComments raw))).2 ++
          [(cid, (runC (none, []) (splitlines (stripComments raw))).1.2)]).foldl
          (fun m p => insertEntry m p.1 p.2) []) := by
      rw [List.foldl_append]
      rfl
    rw [hfold, lookup_foldl_ins]
    simp [lookupEntry, Option.or_none]

/-! ### No committed form contains a quote character -/

theorem not_mem_takeWhile_ne (l : Str) :
    quoteChar ∉ l.takeWhile (fun c => c != quoteChar) := by
  intro hmem
  have := List.mem_takeWhile_imp hmem
  simp at this

theorem matchForm_no_quote : ∀ {cs : Str} {code name after : Str},
    matchForm cs = some (code, name, after) →
    quoteChar ∉ code ∧ quoteChar ∉ name := by
  intro cs code name after h
  unfold matchForm at h
  repeat' split at h
  any_goals exact Option.noConfusion h
  injection h with h2
  injection h2 with ha hb
  injection hb with hb hc
  subst ha
  subst hb
  exact ⟨not_mem_takeWhile_ne _, not_mem_takeWhile_ne _⟩

theorem findFormsGo_no_quote : ∀ (n : Nat) (cs : Str) (p : Form),
    p ∈ findFormsGo n cs → quoteChar ∉ p.1 ∧ quoteChar ∉ p.2 := by
  intro n
  induction n with
  | zero =>
    intro cs p hp
    cases cs <;> simp [findFormsGo] at hp
  | succ n ih =>
    intro cs p hp
    cases cs with
    | nil => simp [findFormsGo] at hp
    | cons c rest =>
      simp only [findFormsGo] at hp
      cases hm : matchForm (c :: rest) with
      | some t =>
        obtain ⟨code, name, after⟩ := t
        rw [hm] at hp
        simp only [List.mem_cons] at hp
        rcases hp with h1 | h2
        · subst h1
          exact matchForm_no_quote hm
        · exact ih _ _ h2
      | none =>
        rw [hm] at hp
        exact ih _ _ hp

theorem parse_forms_no_quote {text : Str} {p : Form}
    (hp : p ∈ parse_forms_from_text text) :
    quoteChar ∉ p.1 ∧ quoteChar ∉ p.2 :=
  findFormsGo_no_quote _ _ _ hp

/-- All forms of a list are quote-free. -/
def QFForms (fs : List Form) : Prop :=
  ∀ p ∈ fs, quoteChar ∉ p.1 ∧ quoteChar ∉ p.2

/-- All forms of all entries are quote-free. -/
def QFMap (m : EntryMap) : Prop := ∀ e ∈ m, QFForms e.2

theorem insertEntry_qf {m : EntryMap} {k : Str} {v : List Form}
    (h2 : QFMap m) (hv : QFForms v) : QFMap (insertEntry m k v) := by
  intro e he
  rcases mem_insertEntry he with h | h
  · exact h2 e h
  · rw [h]
    exact hv

theorem stepLine_qf {st : PState} {l : Str} (h1 : QFForms st.currentForms)
    (h2 : QFMap st.entries) :
    QFForms (stepLine st l).currentForms ∧ QFMap (stepLine st l).entries := by
  simp only [stepLine]
  split
  · exact ⟨h1, h2⟩
  · split
    · split
      · exact ⟨h1, h2⟩
      · split
        · exact ⟨h1, insertEntry_qf h2 (fun p hp => parse_forms_no_quote hp)⟩
        · refine ⟨?_, h2⟩
          split
          · exact fun p hp => parse_forms_no_quote hp
          · intro p hp
            simp at hp
    · split
      · refine ⟨?_, insertEntry_qf h2 h1⟩
        intro p hp
        simp at hp
      · refine ⟨?_, h2⟩
        intro p hp
        rcases List.mem_append.mp hp with h | h
        · exact h1 p h
        · exact parse_forms_no_quote h

theorem run_qf : ∀ (ls : List Str) (st : PState), QFForms st.currentForms →
    QFMap st.entries →
    QFForms ((ls.foldl stepLine st).currentForms) ∧
      QFMap ((ls.foldl stepLine st).entries) := by
  intro ls
  induction ls with
  | nil => intro st h1 h2; exact ⟨h1, h2⟩
  | cons l ls ih =>
    intro st h1 h2
    rw [List.foldl_cons]
    obtain ⟨g1, g2⟩ := stepLine_qf h1 h2
    exact ih _ g1 g2

theorem parse_qf (raw : Str) : QFMap (parse_typescript_map raw) := by
  unfold parse_typescript_map runLines
  obtain ⟨g1, g2⟩ := run_qf (splitlines (stripComments raw)) initState
    (by intro p hp; simp [initState] at hp)
    (by intro e he; simp [initState] at he)
  unfold finalize
  split
  · exact insertEntry_qf g2 g1
  · exact g2

/-! ### The first-longest scan of `summarize` -/

theorem maxLen_cons (x : Str) (l : List Str) :
    maxLen (x :: l) = max x.length (maxLen l) := rfl

theorem foldl_max_first : ∀ (xs : List Str) (b : Str),
    some (xs.foldl (fun best n => if best.length < n.length then n else best) b) =
      (b :: xs).find? (fun n => n.length == maxLen (b :: xs)) := by
  intro xs
  induction xs with
  | nil =>
    intro b
    simp [maxLen_cons, maxLen, List.find?_cons]
  | cons x xs ih =>
    intro b
    rw [List.foldl_cons]
    rw [ih (if b.length < x.length then x else b)]
    by_cases hbx : b.length < x.length
    · rw [if_pos hbx]
      have hm : maxLen (b :: x :: xs) = maxLen (x :: xs) := by
        simp only [maxLen_cons]
        omega
      simp only [hm]
      have hb : (b.length == maxLen (x :: xs)) = false := by
        rw [beq_eq_false_iff_ne]
        have := Nat.le_max_left x.length (maxLen xs)
        simp only [maxLen_cons]
        omega
      simp [List.find?_cons, hb]
    · rw [if_neg hbx]
      have hx : x.length ≤ b.length := Nat.le_of_not_lt hbx
      have hm2 : maxLen (b :: x :: xs) = maxLen (b :: xs) := by
        simp only [maxLen_cons]
        omega
      simp only [hm2]
      by_cases hK : b.length = maxLen (b :: xs)
      · have hb : (b.length == maxLen (b :: xs)) = true := by simp [hK]
        simp [List.find?_cons, hb]
      · have hKgt : b.length < maxLen (b :: xs) := by
          have := Nat.le_max_left b.length (maxLen xs)
          simp only [maxLen_cons] at hK ⊢
          omega
        have hb : (b.length == maxLen (b :: xs)) = false := by
          rw [beq_eq_false_iff_ne]
          omega
        have hxp : (x.length == maxLen (b :: xs)) = false := by
          rw [beq_eq_false_iff_ne]
          omega
        simp [List.find?_cons, hb, hxp]

theorem pyMaxByLen_eq_find (l : List Str) :
    pyMaxByLen l = (l.find? (fun n => n.length == maxLen l)).getD [] := by
  cases l with
  | nil => rfl
  | cons x xs =>
    rw [pyMaxByLen, ← foldl_max_first xs x]
    rfl

/-! ### Concrete inputs used by the claims -/

/-- The spec's single-line complete entry example. -/
def sampleLine : Str := "'5': [['a', 'Alpha'], ['b', 'Beta']],".data

/-- The spec's multi-line block example, with its closing `]` missing. -/
def sampleUnterminated : Str := "'7': [\n  ['x', 'Ex'],\n  ['y', 'Why'],".data

/-- The spec's duplicate-identifier example. -/
def sampleDup : Str := "'3': [['a', 'Aye']],\n'3': [['b', 'Bee']],".data

/-- A line ending in three trailing commas. -/
def sampleCommas : Str := "'5': [['a', 'A']],,,".data

/-! ### The claims -/

/-- C1: in the outside-block state, a line that (after stripping trailing
commas) matches the key pattern and whose remainder value (after stripping
trailing commas and whitespace) starts with `[`, ends with `]` and has an
equal count of `[` and `]` commits the entry at once with the form pairs
extracted left to right, and the parser stays in the outside-block state;
in particular the line `'5': [['a', 'Alpha'], ['b', 'Beta']],` parses to
the entry `"5" ↦ [("a","Alpha"), ("b","Beta")]`. -/
theorem C1_single_line_complete_entry :
    (∀ (st : PState) (line key value : Str), st.currentId = none →
      keyMatch (rstripCommas (pyStrip line)) = some (key, value) →
      startsWith (pyStrip (rstripCommas value)) "[".data →
      (pyStrip (rstripCommas value)).getLast? = some ']' →
      (pyStrip (rstripCommas value)).count '[' =
        (pyStrip (rstripCommas value)).count ']' →
      stepLine st line = { st with entries := (insertEntry st.entries key
          (parse_forms_from_text (pyStrip (rstripCommas value)))) } ∧
        (stepLine st line).currentId = none) ∧
    parse_typescript_map sampleLine =
      [("5".data, [("a".data, "Alpha".data), ("b".data, "Beta".data)])] := by
  constructor
  · intro st line key value hid hkm h1 h2 h3
    have hstep : stepLine st line = { st with entries := (insertEntry st.entries key
        (parse_forms_from_text (pyStrip (rstripCommas value)))) } := by
      simp only [stepLine]
      rw [if_neg (keyMatch_line_shape hkm), hid]
      simp only [hkm]
      rw [if_pos ⟨h1, h2, h3⟩]
    refine ⟨hstep, ?_⟩
    rw [hstep]
    exact hid
  · decide

theorem C1_single_line_complete_entry_witness :
    stepLine initState sampleLine = { initState with entries :=
      (insertEntry initState.entries "5".data (parse_forms_from_text
        (pyStrip (rstripCommas "[['a', 'Alpha'], ['b', 'Beta']]".data)))) } ∧
    (stepLine initState sampleLine).currentId = none :=
  C1_single_line_complete_entry.1 initState sampleLine "5".data
    "[['a', 'Alpha'], ['b', 'Beta']]".data rfl (by decide) (by decide)
    (by decide) (by decide)

/-- C2: when the line pass ends with a multi-line block still open, the
accumulated forms are committed under the open identifier, so the final
mapping contains that identifier with the partial forms; in particular the
unterminated block `'7': [ …` still yields its two accumulated forms. -/
theorem C2_unterminated_block_committed :
    (∀ (raw cid : Str),
      ((splitlines (stripComments raw)).foldl stepLine initState).currentId =
        some cid →
      lookupEntry (parse_typescript_map raw) cid =
        some ((splitlines (stripComments raw)).foldl stepLine
          initState).currentForms) ∧
    parse_typescript_map sampleUnterminated =
      [("7".data, [("x".data, "Ex".data), ("y".data, "Why".data)])] := by
  constructor
  · intro raw cid hc
    unfold parse_typescript_map runLines finalize
    rw [hc]
    rw [lookup_insertEntry]
    simp
  · decide

theorem C2_unterminated_block_committed_witness :
    ((splitlines (stripComments sampleUnterminated)).foldl stepLine
        initState).currentId = some "7".data ∧
    lookupEntry (parse_typescript_map sampleUnterminated) "7".data =
      some ((splitlines (stripComments sampleUnterminated)).foldl stepLine
        initState).currentForms :=
  ⟨by decide, C2_unterminated_block_committed.1 sampleUnterminated "7".data
    (by decide)⟩

/-- C3: every identifier's final value is the value of its last commit in
text order (and so is unaffected by commits under other identifiers):
looking the identifier up in the final map equals looking at the latest
entry of the parse's commit sequence; the spec's duplicate example keeps
only the later occurrence. -/
theorem C3_last_write_wins :
    (∀ (raw k : Str), lookupEntry (parse_typescript_map raw) k =
      lastCommit (commitLog raw) k) ∧
    parse_typescript_map sampleDup = [("3".data, [("b".data, "Bee".data)])] :=
  ⟨parse_lookup_lastCommit, by decide⟩

/-- C4 counterexample: a block comment spanning two lines removes its inner
line break, so the stripped text has fewer lines than the input — the
claim's "same number of lines" fails. -/
theorem C4_counterexample_line_count :
    (splitlines (stripComments "/*\n*/".data)).length ≠
      (splitlines "/*\n*/".data).length := by decide

/-- C4 (amended): the stripper removes only `/* … */` spans and preserves
all other characters in order — the output is a subsequence of the input,
and a text with no `/*` at all is returned unchanged; but the characters
of a span are removed including its line breaks, so the line count is not
preserved when a comment spans lines. -/
theorem C4_strip_only_comment_spans :
    (∀ s : Str, (stripComments s).Sublist s) ∧
    (∀ s : Str, hasOpen s = false → stripComments s = s) :=
  ⟨stripComments_sublist, fun _ h => hasOpen_false_id h⟩

theorem C4_strip_only_comment_spans_witness :
    hasOpen "'1': [['a', 'A']],".data = false ∧
    stripComments "'1': [['a', 'A']],".data = "'1': [['a', 'A']],".data ∧
    (stripComments "ab/*c*/d".data).Sublist "ab/*c*/d".data :=
  ⟨by decide, C4_strip_only_comment_spans.2 _ (by decide),
    C4_strip_only_comment_spans.1 _⟩

/-- C5: a `/* … */` span is removed before entry recognition, non-greedily
(it ends at the first `*/`): parsing a text whose first `/*` opens a span
closed by the first following `*/` equals parsing with the whole span
deleted, so an entry-key line inside the span produces no entry; in
particular a key line inside a comment yields an empty map. -/
theorem C5_comment_span_suppresses_entries :
    (∀ pre mid post : Str, hasOpen pre = false →
      findClose (mid ++ '*' :: '/' :: post) = some post →
      parse_typescript_map (pre ++ '/' :: '*' :: mid ++ '*' :: '/' :: post) =
        runLines (splitlines (pre ++ stripComments post))) ∧
    parse_typescript_map "/*\n'9': [['z', 'Zed']],\n*/".data = [] := by
  constructor
  · intro pre mid post h1 h2
    unfold parse_typescript_map
    have hassoc : pre ++ '/' :: '*' :: mid ++ '*' :: '/' :: post =
        pre ++ '/' :: '*' :: (mid ++ '*' :: '/' :: post) := by
      simp [List.cons_append, List.append_assoc]
    rw [hassoc, stripComments_append_open h1, stripComments_cons_open_some h2]
  · decide

theorem C5_comment_span_suppresses_entries_witness :
    hasOpen "x\n".data = false ∧
    findClose ("\n'9': [['z', 'Zed']],\n".data ++ '*' :: '/' ::
      "\n'5': [['a', 'A']],".data) = some "\n'5': [['a', 'A']],".data ∧
    parse_typescript_map ("x\n".data ++ '/' :: '*' ::
        "\n'9': [['z', 'Zed']],\n".data ++ '*' :: '/' ::
        "\n'5': [['a', 'A']],".data) =
      runLines (splitlines ("x\n".data ++
        stripComments "\n'5': [['a', 'A']],".data)) :=
  ⟨by decide, by decide, C5_comment_span_suppresses_entries.1
    "x\n".data "\n'9': [['z', 'Zed']],\n".data "\n'5': [['a', 'A']],".data
    (by decide) (by decide)⟩

/-- C6 counterexample: `rstrip(",")` removes every trailing comma, not a
single one — on a line ending in three commas the match is not attempted
on the line minus one comma, and the completeness check sees the remainder
with no trailing comma at all, so the entry commits immediately instead of
opening a block. -/
theorem C6_counterexample_single_comma :
    rstripCommas (pyStrip sampleCommas) ≠ (pyStrip sampleCommas).dropLast ∧
    stepLine initState sampleCommas =
      ⟨none, [], [("5".data, [("a".data, "A".data)])]⟩ := by
  constructor
  · decide
  · decide

/-- C6 (amended): at both steps Python's `rstrip(",")` removes every
trailing comma (the stripped text plus some run of commas is the original,
and the stripped text never ends in a comma), so for the line ending in
three commas the completeness check sees a comma-free remainder and the
entry commits at once. -/
theorem C6_all_trailing_commas_stripped :
    (∀ s : Str, (∃ k, s = rstripCommas s ++ List.replicate k ',') ∧
      (rstripCommas s).getLast? ≠ some ',') ∧
    parse_typescript_map sampleCommas =
      [("5".data, [("a".data, "A".data)])] :=
  ⟨fun s => ⟨rstripCommas_replicate s, rstripCommas_getLast s⟩, by decide⟩

/-- C7: the parser is a total function (the model returns a map for every
input by construction) and a line that is blank, a `//` line, an `export`
line, or — outside a block — fails the key pattern, is skipped with no
state change. -/
theorem C7_unrecognized_lines_skipped :
    ∀ (st : PState) (line : Str),
      ((pyStrip line = [] ∨ startsWith (pyStrip line) "//".data ∨
        startsWith (pyStrip line) "export".data) → stepLine st line = st) ∧
      (st.currentId = none →
        keyMatch (rstripCommas (pyStrip line)) = none →
        stepLine st line = st) := by
  intro st line
  constructor
  · intro h
    simp only [stepLine]
    rw [if_pos h]
  · intro hid hkm
    simp only [stepLine]
    split
    · rfl
    · rw [hid]
      simp only [hkm]

theorem C7_unrecognized_lines_skipped_witness :
    initState.currentId = none ∧
    keyMatch (rstripCommas (pyStrip "garbage ) ] [ line".data)) = none ∧
    stepLine initState "garbage ) ] [ line".data = initState :=
  ⟨rfl, by decide, (C7_unrecognized_lines_skipped initState
    "garbage ) ] [ line".data).2 rfl (by decide)⟩

/-- C8: the reported longest form name is the first name, in iteration
order over entries and their form lists, whose length equals the maximum
length (a strict `>` scan never replaces on a tie), and it is the empty
string on an empty mapping; the concrete conjuncts show the empty case and
a tie kept by its first scorer. -/
theorem C8_longest_name_first_of_max :
    (∀ m : EntryMap, longest_name m =
      ((allNames m).find? (fun n => n.length == maxLen (allNames m))).getD []) ∧
    longest_name [] = [] ∧
    longest_name [("1".data, [("a".data, "AB".data), ("b".data, "CD".data)])] =
      "AB".data :=
  ⟨fun m => pyMaxByLen_eq_find (allNames m), rfl, by decide⟩

/-- C9: an unterminated block comment is left in place — when the first
`/*` of the text has no later `*/`, the stripper returns the text
unchanged — so entry-key lines after the dangling `/*` are still parsed;
the concrete conjunct shows such a key line producing its entry. -/
theorem C9_unterminated_comment_left :
    (∀ pre rest : Str, hasOpen pre = false → findClose rest = none →
      stripComments (pre ++ '/' :: '*' :: rest) = pre ++ '/' :: '*' :: rest) ∧
    parse_typescript_map "/* note\n'5': [['a', 'A']],".data =
      [("5".data, [("a".data, "A".data)])] := by
  constructor
  · intro pre rest h1 h2
    rw [stripComments_append_open h1, stripComments_cons_open_none h2]
  · decide

theorem C9_unterminated_comment_left_witness :
    hasOpen "const x = 1\n".data = false ∧
    findClose " dangling\n'8': [['q', 'Qu']],".data = none ∧
    stripComments ("const x = 1\n".data ++ '/' :: '*' ::
        " dangling\n'8': [['q', 'Qu']],".data) =
      "const x = 1\n".data ++ '/' :: '*' :: " dangling\n'8': [['q', 'Qu']],".data :=
  ⟨by decide, by decide, C9_unterminated_comment_left.1
    "const x = 1\n".data " dangling\n'8': [['q', 'Qu']],".data
    (by decide) (by decide)⟩

/-- C10: every form of every committed entry is quote-free — form
extraction only matches single-quoted segments with quote-free interiors,
so neither the code nor the name of any form in the final map contains a
single-quote character. -/
theorem C10_forms_quote_free :
    ∀ (raw k : Str) (forms : List Form),
      lookupEntry (parse_typescript_map raw) k = some forms →
      ∀ p ∈ forms, quoteChar ∉ p.1 ∧ quoteChar ∉ p.2 := by
  intro raw k forms h p hp
  have hqf := parse_qf raw
  unfold lookupEntry at h
  cases hf : (parse_typescript_map raw).find? (fun e => e.1 == k) with
  | none =>
    rw [hf] at h
    simp at h
  | some e =>
    rw [hf] at h
    simp only [Option.map_some', Option.some.injEq] at h
    have hmem := List.mem_of_find?_eq_some hf
    exact hqf e hmem p (h ▸ hp)

theorem C10_forms_quote_free_witness :
    lookupEntry (parse_typescript_map sampleLine) "5".data =
      some [("a".data, "Alpha".data), ("b".data, "Beta".data)] ∧
    (quoteChar ∉ ("a".data : Str) ∧ quoteChar ∉ ("Alpha".data : Str)) :=
  ⟨by decide, C10_forms_quote_free sampleLine "5".data
    [("a".data, "Alpha".data), ("b".data, "Beta".data)] (by decide)
    ("a".data, "Alpha".data) (by simp)⟩

end PokeMap
